import Mathlib

/-!
Verification of the sliding-window compressor in `src/Compressor/compressor.py`.

Bytes are modelled as natural numbers (elements of Python `bytes` are 0..255).
The Python `while` loops of `compress` and `decompress` are modelled with an
explicit iteration budget (`fuel`); the budgets used by the top-level
`Compressor.compress` / `Compressor.decompress` are proved sufficient below
(each loop iteration strictly consumes input), so the fuel never runs out.
Failure by an uncaught Python exception (`IndexError` from an out-of-range
byte access, `ValueError` from `int("", 2)`) is modelled as `Option.none`.
-/

/-- Binary digits of `n`, most significant bit first, with no leading zeros
(and `[]` for `n = 0`).  The first argument is a recursion budget; any budget
`≥ n` gives the same value.  Helper for `natBits`. -/
def natBitsAux : Nat → Nat → List Nat
  | 0, _ => []
  | fuel + 1, n => if n = 0 then [] else natBitsAux fuel (n / 2) ++ [n % 2]

/-- Model of Python's binary formatting of a natural number,
as used by `int2str`: the binary digit string of `n`, most significant
bit first, where `0` renders as the single digit `0`. -/
def natBits (n : Nat) : List Nat := if n = 0 then [0] else natBitsAux n n

/-- Model of `int2str(number, length)`: the binary digits of `number`
padded with leading zeros up to `length` digits (and, as in the source,
not truncated when `number` needs more than `length` digits). -/
def int2str (number length : Nat) : List Nat :=
  List.replicate (length - (natBits number).length) 0 ++ natBits number

/-- Model of Python's `int(bstr, 2)` on a nonempty digit list, most
significant digit first. -/
def bitsToNat (l : List Nat) : Nat := l.foldl (fun a b => 2 * a + b) 0

/-- The low `len` binary digits of `n`, most significant first: a fixed-width
big-endian window.  Reference function used to reason about `int2str`. -/
def natToBits : Nat → Nat → List Nat
  | _, 0 => []
  | n, len + 1 => natToBits (n / 2) len ++ [n % 2]

/-- Constant `Pointer.ESCAPE_CHAR = int.from_bytes(b"\xCC", "big") = 204`. -/
def Pointer.ESCAPE_CHAR : Nat := 204

/-- Constant `Pointer.size`: bytes of the packed pointer field, not counting
the escape byte. -/
def Pointer.size : Nat := 2

/-- Constant `Pointer.bits_offset`: bits used to represent the offset. -/
def Pointer.bits_offset : Nat := 12

/-- Constant `Pointer.bits_length`: bits used to represent the length. -/
def Pointer.bits_length : Nat := 4

/-- Model of `Pointer.size_sliding_window`. -/
def Pointer.size_sliding_window : Nat := 2 ^ Pointer.bits_offset

/-- Model of `Pointer.length_shortest_match`. -/
def Pointer.length_shortest_match : Nat := Pointer.size + 2

/-- Model of `Pointer.length_longest_match`. -/
def Pointer.length_longest_match : Nat :=
  2 ^ Pointer.bits_length + Pointer.length_shortest_match - 1

/-- Model of `Pointer.size_buffer`. -/
def Pointer.size_buffer : Nat := Pointer.length_longest_match + 10

/-- Model of `Pointer.encode`: the escape byte followed by the two bytes of
the big-endian bit string `int2str(offset, 12) + int2str(length - 4, 4)`
(byte `i` is `int(bstr[(i-1)*8 : i*8], 2)`).  The `Nat` subtraction agrees
with the source for `length ≥ length_shortest_match`, which the compress
loop always guarantees. -/
def Pointer.encode (offset length : Nat) : List Nat :=
  let bstr := int2str offset Pointer.bits_offset ++
    int2str (length - Pointer.length_shortest_match) Pointer.bits_length
  [Pointer.ESCAPE_CHAR, bitsToNat (bstr.take 8), bitsToNat ((bstr.drop 8).take 8)]

/-- Model of `Pointer.decode`: rebuild the bit string of the payload bytes
`arr_bytes[1:]` and split it at `bits_offset`; `none` models the
`ValueError` that `int("", 2)` raises in the source when the bit string has
at most `bits_offset` digits (fewer than `size + 1` input bytes). -/
def Pointer.decode (arr_bytes : List Nat) : Option (Nat × Nat) :=
  let bstr := (arr_bytes.drop 1).foldr (fun n acc => int2str n 8 ++ acc) []
  if bstr.length ≤ Pointer.bits_offset then none
  else some (bitsToNat (bstr.take Pointer.bits_offset),
    bitsToNat (bstr.drop Pointer.bits_offset) + Pointer.length_shortest_match)

/-- The inner matching loop of `Compressor.find_match`: greedy count of equal
leading bytes of a sliding-window suffix and the read-ahead buffer, stopped
by the window end, the buffer end, or the cap (`length_longest_match`). -/
def Compressor.matchLoop : Nat → List Nat → List Nat → Nat
  | cap + 1, w :: ws, b :: bs =>
    if w = b then Compressor.matchLoop cap ws bs + 1 else 0
  | _, _, _ => 0

/-- The scan of `Compressor.find_match`: try candidate start indices
`cnt - 1, cnt - 2, …, 0` (right to left over the sliding window, i.e.
smallest offset first); accept the first index whose greedy run is at least
`length_shortest_match`.  The source's quick first-byte comparison is
subsumed: on a first-byte mismatch `matchLoop` returns `0`, which is below
`length_shortest_match`, so the scan moves on exactly as the source does.
The returned offset is `len(sliding_window) - start_index - 1`. -/
def Compressor.findMatchFrom (sliding_window buffer : List Nat) : Nat → Option (Nat × Nat)
  | 0 => none
  | cnt + 1 =>
    if Compressor.matchLoop Pointer.length_longest_match (sliding_window.drop cnt) buffer
        < Pointer.length_shortest_match then
      Compressor.findMatchFrom sliding_window buffer cnt
    else
      some (sliding_window.length - cnt - 1,
        Compressor.matchLoop Pointer.length_longest_match (sliding_window.drop cnt) buffer)

/-- Model of `Compressor.find_match` (scan starts at index
`len(sliding_window) - 1`).  The compress loop only calls it with a nonempty
buffer, as in the source. -/
def Compressor.find_match (sliding_window buffer : List Nat) : Option (Nat × Nat) :=
  Compressor.findMatchFrom sliding_window buffer sliding_window.length

/-- Append to a `deque(maxlen := maxlen)`: keep only the last `maxlen`
elements, evicting from the front (FIFO). -/
def dequeAppend (maxlen : Nat) (q xs : List Nat) : List Nat :=
  (q ++ xs).drop ((q ++ xs).length - maxlen)

/-- The last `n` elements of a list (the sliding-window view of the already
processed stream prefix). -/
def takeLast (n : Nat) (l : List Nat) : List Nat := l.drop (l.length - n)

/-- The `while len(buffer) > 0` loop of `Compressor.compress`, with an
explicit iteration budget `fuel` (at most `buffer.length + text.length`
iterations ever run, proved below).  Returns the emitted byte stream
together with the list of `(offset, length)` pairs passed to
`Pointer.encode`; the second component only instruments the loop for the
pointer-bound invariants and contributes nothing to the byte stream.
Literal case: pop the buffer head into the window, emit it (escaped as
`CC 00 00` when it equals the escape byte), refill one byte from the text.
Match case: emit the encoded pointer, move `length` bytes from the buffer
into the window, refill `length` bytes from the text (`popleft_n` pops at
most what is available, hence the `take`/`drop`). -/
def Compressor.compressLoopF :
    Nat → List Nat → List Nat → List Nat → List Nat × List (Nat × Nat)
  | 0, _, _, _ => ([], [])
  | fuel + 1, sliding_window, buffer, text =>
    match buffer with
    | [] => ([], [])
    | head :: rest =>
      match Compressor.find_match sliding_window (head :: rest) with
      | none =>
        let next := Compressor.compressLoopF fuel
          (dequeAppend Pointer.size_sliding_window sliding_window [head])
          (dequeAppend Pointer.size_buffer rest (text.take 1))
          (text.drop 1)
        ((if head = Pointer.ESCAPE_CHAR then [Pointer.ESCAPE_CHAR, 0, 0] else [head]) ++ next.1,
          next.2)
      | some (offset, length) =>
        let next := Compressor.compressLoopF fuel
          (dequeAppend Pointer.size_sliding_window sliding_window ((head :: rest).take length))
          (dequeAppend Pointer.size_buffer ((head :: rest).drop length) (text.take length))
          (text.drop length)
        (Pointer.encode offset length ++ next.1, (offset, length) :: next.2)

/-- Model of `Compressor.compress`: pre-fill the read-ahead buffer with the
first `size_buffer` input bytes and run the loop; the emitted byte stream. -/
def Compressor.compress (content : List Nat) : List Nat :=
  (Compressor.compressLoopF (content.length + 1) []
    (content.take Pointer.size_buffer) (content.drop Pointer.size_buffer)).1

/-- The `(offset, length)` pairs `Compressor.compress` passes to
`Pointer.encode` on `content` (instrumentation of the same loop). -/
def Compressor.emitted_pointers (content : List Nat) : List (Nat × Nat) :=
  (Compressor.compressLoopF (content.length + 1) []
    (content.take Pointer.size_buffer) (content.drop Pointer.size_buffer)).2

/-- Python index normalisation for slice endpoints: a negative index counts
from the end of the list; results are clamped to `[0, n]`. -/
def pyIndex (n : Nat) (i : Int) : Nat :=
  if i < 0 then (i + n).toNat else min i.toNat n

/-- Python slice `l[start:stop]` with step 1. -/
def pySlice (l : List Nat) (start stop : Int) : List Nat :=
  (l.take (pyIndex l.length stop)).drop (pyIndex l.length start)

/-- The `while cur < len(content)` loop of `Compressor.decompress`, with an
explicit iteration budget `fuel` (each iteration advances the cursor by at
least 1, so `content.length` iterations always suffice, proved below).
A byte different from the escape byte is a literal; `CC 00 00` is an
escaped literal; otherwise the three bytes at the cursor are decoded as a
pointer and `decode[start:end]` of the output produced so far is appended
(`start = len(decode) - offset - 1`, `end = start + length`, with Python
slice semantics).  `none` models the uncaught `IndexError` (escape byte
within the last two positions, next byte zero or missing) and the
`ValueError` from decoding a short pointer slice (escape byte at the
second-to-last position, next byte nonzero): in every such truncated case
the source raises. -/
def Compressor.decompressLoopF : Nat → List Nat → List Nat → Option (List Nat)
  | _, [], decode => some decode
  | 0, _ :: _, _ => none
  | fuel + 1, head :: rest, decode =>
    if head ≠ Pointer.ESCAPE_CHAR then
      Compressor.decompressLoopF fuel rest (decode ++ [head])
    else
      match rest with
      | r1 :: r2 :: rest2 =>
        if r1 = 0 ∧ r2 = 0 then
          Compressor.decompressLoopF fuel rest2 (decode ++ [Pointer.ESCAPE_CHAR])
        else
          match Pointer.decode [head, r1, r2] with
          | some (offset, length) =>
            Compressor.decompressLoopF fuel rest2
              (decode ++ pySlice decode ((decode.length : Int) - offset - 1)
                ((decode.length : Int) - offset - 1 + length))
          | none => none
      | _ => none

/-- Model of `Compressor.decompress`. -/
def Compressor.decompress (content : List Nat) : Option (List Nat) :=
  Compressor.decompressLoopF content.length content []

/-! ### Numeric values of the format constants -/

theorem Pointer.ESCAPE_CHAR_eq : Pointer.ESCAPE_CHAR = 204 := rfl

theorem Pointer.bits_offset_eq : Pointer.bits_offset = 12 := rfl

theorem Pointer.bits_length_eq : Pointer.bits_length = 4 := rfl

theorem Pointer.length_shortest_match_eq : Pointer.length_shortest_match = 4 := rfl

theorem Pointer.length_longest_match_eq : Pointer.length_longest_match = 19 := rfl

theorem Pointer.size_sliding_window_eq : Pointer.size_sliding_window = 4096 := rfl

theorem Pointer.size_buffer_eq : Pointer.size_buffer = 29 := rfl

/-! ### Bit-string lemmas -/

theorem natBitsAux_zero (fuel : Nat) : natBitsAux fuel 0 = [] := by
  cases fuel <;> simp [natBitsAux]

theorem natBitsAux_congr : ∀ f1 f2 n, n ≤ f1 → n ≤ f2 → natBitsAux f1 n = natBitsAux f2 n := by
  intro f1
  induction f1 with
  | zero =>
    intro f2 n h1 _
    have : n = 0 := by omega
    subst this
    rw [natBitsAux_zero, natBitsAux_zero]
  | succ f ih =>
    intro f2 n h1 h2
    match f2, n with
    | f2, 0 => rw [natBitsAux_zero, natBitsAux_zero]
    | 0, n + 1 => omega
    | f2 + 1, n + 1 =>
      simp only [natBitsAux, Nat.succ_ne_zero, if_false]
      rw [ih f2 ((n + 1) / 2) (by omega) (by omega)]

theorem natBits_zero : natBits 0 = [0] := rfl

theorem natBits_one : natBits 1 = [1] := rfl

theorem natBits_two_le (n : Nat) (h : 2 ≤ n) : natBits n = natBits (n / 2) ++ [n % 2] := by
  have h1 : n ≠ 0 := by omega
  have h2 : n / 2 ≠ 0 := by omega
  obtain ⟨m, rfl⟩ : ∃ m, n = m + 1 := ⟨n - 1, by omega⟩
  unfold natBits
  simp only [h1, h2, if_false]
  show natBitsAux m ((m + 1) / 2) ++ [(m + 1) % 2] = _
  rw [natBitsAux_congr m ((m + 1) / 2) ((m + 1) / 2) (by omega) (by omega)]

theorem natToBits_length : ∀ (len n : Nat), (natToBits n len).length = len := by
  intro len
  induction len with
  | zero => intro n; rfl
  | succ k ih => intro n; simp [natToBits, ih]

theorem natToBits_zero_cons : ∀ (len n : Nat), n < 2 ^ len →
    natToBits n (len + 1) = 0 :: natToBits n len := by
  intro len
  induction len with
  | zero =>
    intro n h
    have : n = 0 := by omega
    subst this
    rfl
  | succ k ih =>
    intro n h
    have hp : (2 : Nat) ^ (k + 1) = 2 * 2 ^ k := by ring
    show natToBits (n / 2) (k + 1) ++ [n % 2] = 0 :: (natToBits (n / 2) k ++ [n % 2])
    rw [ih (n / 2) (by rw [hp] at h; omega)]
    rfl

theorem natBits_eq_natToBits : ∀ n, natBits n = natToBits n (natBits n).length := by
  intro n
  induction n using Nat.strong_induction_on with
  | _ n ih =>
    match n, ih with
    | 0, _ => rfl
    | 1, _ => rfl
    | n + 2, ih =>
      rw [natBits_two_le (n + 2) (by omega)]
      have ihh := ih ((n + 2) / 2) (by omega)
      simp only [List.length_append, List.length_cons, List.length_nil]
      show _ = natToBits (n + 2) ((natBits ((n + 2) / 2)).length + (0 + 1))
      rw [show (natBits ((n + 2) / 2)).length + (0 + 1)
          = (natBits ((n + 2) / 2)).length + 1 by omega]
      show _ = natToBits ((n + 2) / 2) (natBits ((n + 2) / 2)).length ++ [(n + 2) % 2]
      rw [← ihh]

theorem natBits_lt : ∀ n, n < 2 ^ (natBits n).length := by
  intro n
  induction n using Nat.strong_induction_on with
  | _ n ih =>
    match n, ih with
    | 0, _ => decide
    | 1, _ => decide
    | n + 2, ih =>
      rw [natBits_two_le (n + 2) (by omega)]
      have ihh := ih ((n + 2) / 2) (by omega)
      simp only [List.length_append, List.length_cons, List.length_nil]
      have hp : (2 : Nat) ^ ((natBits ((n + 2) / 2)).length + (0 + 1))
          = 2 * 2 ^ (natBits ((n + 2) / 2)).length := by ring
      rw [hp]
      omega

theorem natBits_length_le : ∀ n len, 0 < len → n < 2 ^ len → (natBits n).length ≤ len := by
  intro n
  induction n using Nat.strong_induction_on with
  | _ n ih =>
    match n, ih with
    | 0, _ => intro len h0 _; simpa [natBits_zero] using h0
    | 1, _ => intro len h0 _; simpa [natBits_one] using h0
    | n + 2, ih =>
      intro len h0 hlt
      obtain ⟨k, rfl⟩ : ∃ k, len = k + 1 := ⟨len - 1, by omega⟩
      have hp : (2 : Nat) ^ (k + 1) = 2 * 2 ^ k := by ring
      have hk : 0 < k := by
        rcases Nat.eq_zero_or_pos k with h | h
        · subst h; omega
        · exact h
      have hdiv : (n + 2) / 2 < 2 ^ k := by rw [hp] at hlt; omega
      have := ih ((n + 2) / 2) (by omega) k hk hdiv
      rw [natBits_two_le (n + 2) (by omega)]
      simp only [List.length_append, List.length_cons, List.length_nil]
      omega

theorem natToBits_leading : ∀ k len n, n < 2 ^ len →
    natToBits n (k + len) = List.replicate k 0 ++ natToBits n len := by
  intro k
  induction k with
  | zero => intro len n _; simp
  | succ kk ih =>
    intro len n h
    have h2 : n < 2 ^ (kk + len) :=
      lt_of_lt_of_le h (Nat.pow_le_pow_right (by omega) (by omega))
    rw [show kk + 1 + len = (kk + len) + 1 by omega, natToBits_zero_cons (kk + len) n h2,
      ih len n h]
    rfl

theorem int2str_eq_natToBits (n len : Nat) (h0 : 0 < len) (h : n < 2 ^ len) :
    int2str n len = natToBits n len := by
  unfold int2str
  have hL := natBits_length_le n len h0 h
  have h2 := natBits_lt n
  obtain ⟨L, hLdef⟩ : ∃ L, (natBits n).length = L := ⟨_, rfl⟩
  rw [hLdef] at hL h2 ⊢
  have hb : natBits n = natToBits n L := by rw [natBits_eq_natToBits n, hLdef]
  rw [hb, ← natToBits_leading (len - L) L n h2]
  congr 1
  omega

theorem int2str_length_of_lt (n len : Nat) (h0 : 0 < len) (h : n < 2 ^ len) :
    (int2str n len).length = len := by
  rw [int2str_eq_natToBits n len h0 h, natToBits_length]

theorem bitsToNat_append (l : List Nat) (b : Nat) :
    bitsToNat (l ++ [b]) = 2 * bitsToNat l + b := by
  simp [bitsToNat, List.foldl_append]

theorem bitsToNat_natToBits : ∀ len n, bitsToNat (natToBits n len) = n % 2 ^ len := by
  intro len
  induction len with
  | zero => intro n; simp [natToBits, bitsToNat, Nat.mod_one]
  | succ k ih =>
    intro n
    show bitsToNat (natToBits (n / 2) k ++ [n % 2]) = _
    rw [bitsToNat_append, ih (n / 2)]
    have hp : (2 : Nat) ^ (k + 1) = 2 * 2 ^ k := by ring
    rw [hp, Nat.mod_mul]
    omega

theorem natToBits_split : ∀ b a n,
    natToBits n (a + b) = natToBits (n / 2 ^ b) a ++ natToBits (n % 2 ^ b) b := by
  intro b
  induction b with
  | zero => intro a n; simp [natToBits]
  | succ k ih =>
    intro a n
    have hp : (2 : Nat) ^ (k + 1) = 2 * 2 ^ k := by ring
    have hmul : n % (2 * 2 ^ k) = n % 2 + 2 * (n / 2 % 2 ^ k) := Nat.mod_mul
    have hlt : n % 2 < 2 := Nat.mod_lt _ (by omega)
    have e1 : n / 2 / 2 ^ k = n / 2 ^ (k + 1) := by
      rw [Nat.div_div_eq_div_mul, hp, Nat.mul_comm]
    have e2 : n / 2 % 2 ^ k = n % 2 ^ (k + 1) / 2 := by rw [hp, hmul]; omega
    have e3 : n % 2 ^ (k + 1) % 2 = n % 2 := by rw [hp, hmul]; omega
    show natToBits (n / 2) (a + k) ++ [n % 2] = _
    rw [ih a (n / 2)]
    show _ = natToBits (n / 2 ^ (k + 1)) a
      ++ (natToBits (n % 2 ^ (k + 1) / 2) k ++ [n % 2 ^ (k + 1) % 2])
    rw [e1, ← e2, e3, List.append_assoc]

theorem natToBits_bits_lt : ∀ len n x, x ∈ natToBits n len → x < 2 := by
  intro len
  induction len with
  | zero => intro n x h; simp [natToBits] at h
  | succ k ih =>
    intro n x h
    rcases List.mem_append.1 h with h | h
    · exact ih (n / 2) x h
    · simp at h; omega

theorem natToBits_bitsToNat : ∀ l : List Nat, (∀ x ∈ l, x < 2) →
    natToBits (bitsToNat l) l.length = l := by
  intro l
  induction l using List.reverseRecOn with
  | nil => intro _; rfl
  | append_singleton xs b ih =>
    intro h
    have hb : b < 2 := h b (by simp)
    have hxs : ∀ x ∈ xs, x < 2 := fun x hx => h x (by simp [hx])
    rw [bitsToNat_append]
    simp only [List.length_append, List.length_cons, List.length_nil]
    show natToBits ((2 * bitsToNat xs + b) / 2) (xs.length + 0)
      ++ [(2 * bitsToNat xs + b) % 2] = xs ++ [b]
    rw [show (2 * bitsToNat xs + b) / 2 = bitsToNat xs by omega,
      show (2 * bitsToNat xs + b) % 2 = b by omega,
      show xs.length + 0 = xs.length by omega, ih hxs]

theorem bitsToNat_lt : ∀ l : List Nat, (∀ x ∈ l, x < 2) → bitsToNat l < 2 ^ l.length := by
  intro l
  induction l using List.reverseRecOn with
  | nil => intro _; decide
  | append_singleton xs b ih =>
    intro h
    have hb : b < 2 := h b (by simp)
    have hxs := ih (fun x hx => h x (by simp [hx]))
    rw [bitsToNat_append]
    simp only [List.length_append, List.length_cons, List.length_nil]
    have hp : (2 : Nat) ^ (xs.length + (0 + 1)) = 2 * 2 ^ xs.length := by ring
    rw [hp]
    omega

/-! ### Pointer codec lemmas -/

theorem natToBits_sixteen_hi_lo (N : Nat) :
    natToBits N 16 = natToBits (N / 256) 8 ++ natToBits (N % 256) 8 := by
  have := natToBits_split 8 8 N
  norm_num at this
  exact this

theorem natToBits_sixteen_off_len (N : Nat) :
    natToBits N 16 = natToBits (N / 16) 12 ++ natToBits (N % 16) 4 := by
  have := natToBits_split 4 12 N
  norm_num at this
  exact this

theorem Pointer.encode_eq_bytes (o lp : Nat) (ho : o < 4096) (hl : lp < 16) :
    Pointer.encode o (lp + 4) =
      [204, (o * 16 + lp) / 256, (o * 16 + lp) % 256] := by
  have hN : o * 16 + lp < 65536 := by omega
  have e1 : int2str o Pointer.bits_offset = natToBits o 12 := by
    rw [Pointer.bits_offset_eq]
    exact int2str_eq_natToBits o 12 (by omega) (by norm_num; omega)
  have e2 : int2str (lp + 4 - Pointer.length_shortest_match) Pointer.bits_length
      = natToBits lp 4 := by
    rw [Pointer.bits_length_eq, Pointer.length_shortest_match_eq,
      show lp + 4 - 4 = lp by omega]
    exact int2str_eq_natToBits lp 4 (by omega) (by norm_num; omega)
  have e3 : natToBits o 12 ++ natToBits lp 4 = natToBits (o * 16 + lp) 16 := by
    have h := natToBits_sixteen_off_len (o * 16 + lp)
    rw [show (o * 16 + lp) / 16 = o by omega, show (o * 16 + lp) % 16 = lp by omega] at h
    exact h.symm
  have tk : (natToBits ((o * 16 + lp) / 256) 8 ++ natToBits ((o * 16 + lp) % 256) 8).take 8
      = natToBits ((o * 16 + lp) / 256) 8 := by
    rw [List.take_append_eq_append_take, natToBits_length,
      List.take_of_length_le (by rw [natToBits_length])]
    simp
  have dr : (natToBits ((o * 16 + lp) / 256) 8 ++ natToBits ((o * 16 + lp) % 256) 8).drop 8
      = natToBits ((o * 16 + lp) % 256) 8 := by
    rw [List.drop_append_eq_append_drop, natToBits_length]
    simp [List.drop_eq_nil_of_le, natToBits_length]
  unfold Pointer.encode
  simp only [e1, e2, e3]
  rw [natToBits_sixteen_hi_lo (o * 16 + lp), tk, dr,
    List.take_of_length_le (by rw [natToBits_length])]
  rw [bitsToNat_natToBits, bitsToNat_natToBits]
  rw [Pointer.ESCAPE_CHAR_eq]
  have m1 : (o * 16 + lp) / 256 % 2 ^ 8 = (o * 16 + lp) / 256 := by
    have h8 : (2 : Nat) ^ 8 = 256 := by norm_num
    rw [h8]
    omega
  have m2 : (o * 16 + lp) % 256 % 2 ^ 8 = (o * 16 + lp) % 256 := by
    have h8 : (2 : Nat) ^ 8 = 256 := by norm_num
    rw [h8]
    omega
  rw [m1, m2]

theorem Pointer.decode_encode (o lp : Nat) (ho : o < 4096) (hl : lp < 16) :
    Pointer.decode (Pointer.encode o (lp + 4)) = some (o, lp + 4) := by
  rw [Pointer.encode_eq_bytes o lp ho hl]
  have hN : o * 16 + lp < 65536 := by omega
  have hb1 : (o * 16 + lp) / 256 < 256 := by omega
  have hb2 : (o * 16 + lp) % 256 < 256 := by omega
  unfold Pointer.decode
  simp only [List.drop, List.foldr, List.append_nil]
  have e1 : int2str ((o * 16 + lp) / 256) 8 = natToBits ((o * 16 + lp) / 256) 8 :=
    int2str_eq_natToBits _ 8 (by omega) (by norm_num; omega)
  have e2 : int2str ((o * 16 + lp) % 256) 8 = natToBits ((o * 16 + lp) % 256) 8 :=
    int2str_eq_natToBits _ 8 (by omega) (by norm_num; omega)
  rw [e1, e2, ← natToBits_sixteen_hi_lo (o * 16 + lp)]
  rw [natToBits_sixteen_off_len (o * 16 + lp)]
  have hlenall : (natToBits ((o * 16 + lp) / 16) 12 ++ natToBits ((o * 16 + lp) % 16) 4).length
      = 16 := by simp [natToBits_length]
  have tk : (natToBits ((o * 16 + lp) / 16) 12 ++ natToBits ((o * 16 + lp) % 16) 4).take 12
      = natToBits ((o * 16 + lp) / 16) 12 := by
    rw [List.take_append_eq_append_take, natToBits_length,
      List.take_of_length_le (by rw [natToBits_length])]
    simp
  have dr : (natToBits ((o * 16 + lp) / 16) 12 ++ natToBits ((o * 16 + lp) % 16) 4).drop 12
      = natToBits ((o * 16 + lp) % 16) 4 := by
    rw [List.drop_append_eq_append_drop, natToBits_length]
    simp [List.drop_eq_nil_of_le, natToBits_length]
  rw [Pointer.bits_offset_eq]
  rw [if_neg (by rw [hlenall]; omega)]
  rw [tk, dr]
  rw [bitsToNat_natToBits, bitsToNat_natToBits]
  rw [show (o * 16 + lp) / 16 = o by omega, show (o * 16 + lp) % 16 = lp by omega]
  rw [Pointer.length_shortest_match_eq]
  norm_num
  omega

/-! ### Match-finder lemmas -/

theorem Compressor.matchLoop_le_cap : ∀ cap ws bs, Compressor.matchLoop cap ws bs ≤ cap := by
  intro cap
  induction cap with
  | zero => intro ws bs; cases ws <;> cases bs <;> simp [Compressor.matchLoop]
  | succ k ih =>
    intro ws bs
    cases ws with
    | nil => simp [Compressor.matchLoop]
    | cons w ws =>
      cases bs with
      | nil => simp [Compressor.matchLoop]
      | cons b bs =>
        simp only [Compressor.matchLoop]
        split
        · have := ih ws bs; omega
        · omega

theorem Compressor.matchLoop_le_window : ∀ cap ws bs,
    Compressor.matchLoop cap ws bs ≤ ws.length := by
  intro cap
  induction cap with
  | zero => intro ws bs; cases ws <;> cases bs <;> simp [Compressor.matchLoop]
  | succ k ih =>
    intro ws bs
    cases ws with
    | nil => simp [Compressor.matchLoop]
    | cons w ws =>
      cases bs with
      | nil => simp [Compressor.matchLoop]
      | cons b bs =>
        simp only [Compressor.matchLoop, List.length_cons]
        split
        · have := ih ws bs; omega
        · omega

theorem Compressor.matchLoop_le_buffer : ∀ cap ws bs,
    Compressor.matchLoop cap ws bs ≤ bs.length := by
  intro cap
  induction cap with
  | zero => intro ws bs; cases ws <;> cases bs <;> simp [Compressor.matchLoop]
  | succ k ih =>
    intro ws bs
    cases ws with
    | nil => simp [Compressor.matchLoop]
    | cons w ws =>
      cases bs with
      | nil => simp [Compressor.matchLoop]
      | cons b bs =>
        simp only [Compressor.matchLoop, List.length_cons]
        split
        · have := ih ws bs; omega
        · omega

theorem Compressor.matchLoop_take_eq : ∀ (cap : Nat) (ws bs : List Nat),
    ws.take (Compressor.matchLoop cap ws bs) = bs.take (Compressor.matchLoop cap ws bs) := by
  intro cap
  induction cap with
  | zero => intro ws bs; cases ws <;> cases bs <;> simp [Compressor.matchLoop]
  | succ k ih =>
    intro ws bs
    cases ws with
    | nil => simp [Compressor.matchLoop]
    | cons w ws =>
      cases bs with
      | nil => simp [Compressor.matchLoop]
      | cons b bs =>
        simp only [Compressor.matchLoop]
        split
        · rename_i hwb
          simp [List.take_succ_cons, hwb, ih ws bs]
        · simp

theorem Compressor.findMatchFrom_some : ∀ cnt w b o l,
    Compressor.findMatchFrom w b cnt = some (o, l) →
    ∃ k, k < cnt ∧ o = w.length - k - 1
      ∧ l = Compressor.matchLoop Pointer.length_longest_match (w.drop k) b
      ∧ Pointer.length_shortest_match ≤ l := by
  intro cnt
  induction cnt with
  | zero => intro w b o l h; simp [Compressor.findMatchFrom] at h
  | succ c ih =>
    intro w b o l h
    simp only [Compressor.findMatchFrom] at h
    split at h
    · obtain ⟨j, hj, rest⟩ := ih w b o l h
      exact ⟨j, by omega, rest⟩
    · rename_i hge
      simp only [Option.some.injEq, Prod.mk.injEq] at h
      obtain ⟨ho, hl⟩ := h
      exact ⟨c, by omega, ho.symm, hl.symm, by omega⟩

theorem Compressor.find_match_spec (w b : List Nat) (o l : Nat)
    (h : Compressor.find_match w b = some (o, l)) :
    Pointer.length_shortest_match ≤ l ∧ l ≤ Pointer.length_longest_match
      ∧ o < w.length ∧ l ≤ o + 1 ∧ l ≤ b.length
      ∧ (w.drop (w.length - o - 1)).take l = b.take l := by
  obtain ⟨k, hk, ho, hl, h4⟩ := Compressor.findMatchFrom_some w.length w b o l h
  have hcap := Compressor.matchLoop_le_cap Pointer.length_longest_match (w.drop k) b
  have hwin := Compressor.matchLoop_le_window Pointer.length_longest_match (w.drop k) b
  have hbuf := Compressor.matchLoop_le_buffer Pointer.length_longest_match (w.drop k) b
  have htake := Compressor.matchLoop_take_eq Pointer.length_longest_match (w.drop k) b
  rw [List.length_drop] at hwin
  have hidx : w.length - o - 1 = k := by omega
  subst ho
  subst hl
  refine ⟨h4, hcap, by omega, by omega, hbuf, ?_⟩
  rw [hidx]
  exact htake

theorem Compressor.findMatchFrom_finds : ∀ cnt w b k,
    k < cnt →
    Pointer.length_shortest_match
      ≤ Compressor.matchLoop Pointer.length_longest_match (w.drop k) b →
    (∀ j, k < j → j < cnt →
      Compressor.matchLoop Pointer.length_longest_match (w.drop j) b
        < Pointer.length_shortest_match) →
    Compressor.findMatchFrom w b cnt
      = some (w.length - k - 1,
          Compressor.matchLoop Pointer.length_longest_match (w.drop k) b) := by
  intro cnt
  induction cnt with
  | zero => intro w b k h; omega
  | succ c ih =>
    intro w b k hk hge hrej
    simp only [Compressor.findMatchFrom]
    by_cases hc : k = c
    · subst hc
      rw [if_neg (by omega)]
    · have hck : k < c := by omega
      rw [if_pos (hrej c (by omega) (by omega))]
      exact ih w b k hck hge (fun j h1 h2 => hrej j h1 (by omega))

/-! ### List window utilities -/

theorem takeLast_nil (n : Nat) : takeLast n [] = [] := by
  simp [takeLast]

theorem takeLast_length (n : Nat) (l : List Nat) : (takeLast n l).length = min n l.length := by
  simp only [takeLast, List.length_drop]
  omega

theorem dequeAppend_eq_takeLast (c : Nat) (q xs : List Nat) :
    dequeAppend c q xs = takeLast c (q ++ xs) := rfl

theorem dequeAppend_length (c : Nat) (q xs : List Nat) :
    (dequeAppend c q xs).length = min c (q.length + xs.length) := by
  simp only [dequeAppend, List.length_drop, List.length_append]
  omega

theorem dequeAppend_of_le (c : Nat) (q xs : List Nat) (h : q.length + xs.length ≤ c) :
    dequeAppend c q xs = q ++ xs := by
  simp only [dequeAppend, List.length_append]
  rw [show q.length + xs.length - c = 0 by omega]
  rfl

theorem takeLast_append_takeLast (n : Nat) (xs ys : List Nat) :
    takeLast n (takeLast n xs ++ ys) = takeLast n (xs ++ ys) := by
  unfold takeLast
  rw [List.drop_append_eq_append_drop, List.drop_drop, List.drop_append_eq_append_drop]
  simp only [List.length_append, List.length_drop]
  congr 1
  · congr 1
    omega
  · congr 1
    omega

theorem drop_takeLast (W o : Nat) (out : List Nat) (ho : o + 1 ≤ (takeLast W out).length) :
    (takeLast W out).drop ((takeLast W out).length - o - 1)
      = out.drop (out.length - o - 1) := by
  have hlen := takeLast_length W out
  unfold takeLast
  rw [List.drop_drop]
  unfold takeLast at hlen ho
  congr 1
  simp only [List.length_drop] at *
  omega

theorem pySlice_eq_drop_take (l : List Nat) (s k : Nat) (h : s + k ≤ l.length) :
    pySlice l (s : Int) ((s : Int) + (k : Int)) = (l.drop s).take k := by
  unfold pySlice pyIndex
  rw [if_neg (by omega), if_neg (by omega)]
  have e1 : ((s : Int) + (k : Int)).toNat = s + k := by omega
  have e2 : ((s : Int)).toNat = s := by omega
  rw [e1, e2, min_eq_left (by omega), min_eq_left (by omega), List.drop_take]
  rw [show s + k - s = k by omega]

/-! ### Stream-loop step lemmas -/

theorem Pointer.encode_length (offset length : Nat) :
    (Pointer.encode offset length).length = Pointer.size + 1 := by
  simp [Pointer.encode, Pointer.size]

theorem Compressor.compressLoopF_nil (fuel : Nat) (w text : List Nat) :
    Compressor.compressLoopF fuel w [] text = ([], []) := by
  cases fuel <;> simp [Compressor.compressLoopF]

theorem Compressor.compressLoopF_literal (f : Nat) (w : List Nat) (head : Nat)
    (rest text : List Nat)
    (hfm : Compressor.find_match w (head :: rest) = none) :
    Compressor.compressLoopF (f + 1) w (head :: rest) text
      = ((if head = Pointer.ESCAPE_CHAR then [Pointer.ESCAPE_CHAR, 0, 0] else [head])
          ++ (Compressor.compressLoopF f
              (dequeAppend Pointer.size_sliding_window w [head])
              (dequeAppend Pointer.size_buffer rest (text.take 1))
              (text.drop 1)).1,
         (Compressor.compressLoopF f
             (dequeAppend Pointer.size_sliding_window w [head])
             (dequeAppend Pointer.size_buffer rest (text.take 1))
             (text.drop 1)).2) := by
  simp [Compressor.compressLoopF, hfm]

theorem Compressor.compressLoopF_match (f : Nat) (w : List Nat) (head : Nat)
    (rest text : List Nat) (o l : Nat)
    (hfm : Compressor.find_match w (head :: rest) = some (o, l)) :
    Compressor.compressLoopF (f + 1) w (head :: rest) text
      = (Pointer.encode o l
          ++ (Compressor.compressLoopF f
              (dequeAppend Pointer.size_sliding_window w ((head :: rest).take l))
              (dequeAppend Pointer.size_buffer ((head :: rest).drop l) (text.take l))
              (text.drop l)).1,
         (o, l) :: (Compressor.compressLoopF f
             (dequeAppend Pointer.size_sliding_window w ((head :: rest).take l))
             (dequeAppend Pointer.size_buffer ((head :: rest).drop l) (text.take l))
             (text.drop l)).2) := by
  simp [Compressor.compressLoopF, hfm]

theorem Compressor.decompressLoopF_literal (fd : Nat) (b : Nat) (rest out : List Nat)
    (hb : b ≠ Pointer.ESCAPE_CHAR) :
    Compressor.decompressLoopF (fd + 1) (b :: rest) out
      = Compressor.decompressLoopF fd rest (out ++ [b]) := by
  simp [Compressor.decompressLoopF, hb]

theorem Compressor.decompressLoopF_escape (fd : Nat) (rest out : List Nat) :
    Compressor.decompressLoopF (fd + 1) (Pointer.ESCAPE_CHAR :: 0 :: 0 :: rest) out
      = Compressor.decompressLoopF fd rest (out ++ [Pointer.ESCAPE_CHAR]) := by
  simp [Compressor.decompressLoopF]

theorem Compressor.decompressLoopF_pointer (fd o l : Nat) (rest out : List Nat)
    (ho : o < 4096) (hl4 : 4 ≤ l) (hl19 : l ≤ 19)
    (hlo : l ≤ o + 1) (hout : o + 1 ≤ out.length) :
    Compressor.decompressLoopF (fd + 1) (Pointer.encode o l ++ rest) out
      = Compressor.decompressLoopF fd rest
          (out ++ (out.drop (out.length - o - 1)).take l) := by
  obtain ⟨lp, rfl⟩ : ∃ lp, l = lp + 4 := ⟨l - 4, by omega⟩
  have hlp : lp < 16 := by omega
  have hdec : Pointer.decode [204, (o * 16 + lp) / 256, (o * 16 + lp) % 256]
      = some (o, lp + 4) := by
    rw [← Pointer.encode_eq_bytes o lp ho hlp]
    exact Pointer.decode_encode o lp ho hlp
  rw [Pointer.encode_eq_bytes o lp ho hlp]
  show Compressor.decompressLoopF (fd + 1)
      (204 :: (o * 16 + lp) / 256 :: (o * 16 + lp) % 256 :: rest) out = _
  simp only [Compressor.decompressLoopF, Pointer.ESCAPE_CHAR_eq]
  rw [if_neg (by omega)]
  rw [if_neg (by omega)]
  rw [hdec]
  dsimp only
  have hc1 : ((out.length : Int) - (o : Int) - 1) = (((out.length - o - 1 : Nat)) : Int) := by
    omega
  rw [hc1, pySlice_eq_drop_take out (out.length - o - 1) (lp + 4) (by omega)]

/-! ### Round-trip invariant -/

theorem Compressor.roundtrip_aux :
    ∀ (fuel : Nat) (w buf text out : List Nat) (fueld : Nat),
    buf.length + text.length ≤ fuel →
    w = takeLast Pointer.size_sliding_window out →
    buf.length = min Pointer.size_buffer (buf.length + text.length) →
    (Compressor.compressLoopF fuel w buf text).1.length ≤ fueld →
    Compressor.decompressLoopF fueld (Compressor.compressLoopF fuel w buf text).1 out
      = some (out ++ (buf ++ text)) := by
  intro fuel
  induction fuel with
  | zero =>
    intro w buf text out fueld hm hw hb hf
    have hbnil : buf = [] := List.length_eq_zero.mp (by omega)
    subst hbnil
    have htnil : text = [] := List.length_eq_zero.mp (by omega)
    subst htnil
    simp [Compressor.compressLoopF, Compressor.decompressLoopF]
  | succ f ih =>
    intro w buf text out fueld hm hw hb hf
    cases buf with
    | nil =>
      have h0 := hb
      rw [Pointer.size_buffer_eq] at h0
      simp only [List.length_nil, Nat.zero_add] at h0
      have htnil : text = [] := List.length_eq_zero.mp (by omega)
      subst htnil
      rw [Compressor.compressLoopF_nil]
      simp [Compressor.decompressLoopF]
    | cons head rest =>
      have hLb : rest.length + 1 = min 29 (rest.length + 1 + text.length) := by
        have h0 := hb
        rw [Pointer.size_buffer_eq] at h0
        simpa using h0
      simp only [List.length_cons] at hm
      cases hfm : Compressor.find_match w (head :: rest) with
      | none =>
        rw [Compressor.compressLoopF_literal f w head rest text hfm] at hf ⊢
        dsimp only at hf ⊢
        have hb2eq : dequeAppend Pointer.size_buffer rest (text.take 1)
            = rest ++ text.take 1 := by
          apply dequeAppend_of_le
          rw [Pointer.size_buffer_eq]
          simp only [List.length_take]
          omega
        have hw2 : dequeAppend Pointer.size_sliding_window w [head]
            = takeLast Pointer.size_sliding_window (out ++ [head]) := by
          rw [dequeAppend_eq_takeLast, hw, takeLast_append_takeLast]
        have hm2 : (dequeAppend Pointer.size_buffer rest (text.take 1)).length
            + (text.drop 1).length ≤ f := by
          rw [hb2eq]
          simp only [List.length_append, List.length_take, List.length_drop]
          omega
        have hb2inv : (dequeAppend Pointer.size_buffer rest (text.take 1)).length
            = min Pointer.size_buffer
              ((dequeAppend Pointer.size_buffer rest (text.take 1)).length
                + (text.drop 1).length) := by
          rw [hb2eq, Pointer.size_buffer_eq]
          simp only [List.length_append, List.length_take, List.length_drop]
          omega
        have hfinal : (out ++ [head]) ++ ((rest ++ text.take 1) ++ text.drop 1)
            = out ++ (head :: rest ++ text) := by
          rw [List.append_assoc rest (text.take 1) (text.drop 1), List.take_append_drop]
          simp
        by_cases hesc : head = Pointer.ESCAPE_CHAR
        · subst hesc
          rw [if_pos rfl] at hf ⊢
          simp only [List.length_append, List.length_cons] at hf
          obtain ⟨fd, rfl⟩ : ∃ fd, fueld = fd + 1 := ⟨fueld - 1, by omega⟩
          simp only [List.cons_append, List.nil_append]
          rw [Compressor.decompressLoopF_escape]
          rw [ih _ _ _ _ fd hm2 hw2 hb2inv (by omega)]
          rw [hb2eq]
          exact congrArg some hfinal
        · rw [if_neg hesc] at hf ⊢
          simp only [List.length_append, List.length_cons] at hf
          obtain ⟨fd, rfl⟩ : ∃ fd, fueld = fd + 1 := ⟨fueld - 1, by omega⟩
          rw [List.singleton_append]
          rw [Compressor.decompressLoopF_literal fd head _ out hesc]
          rw [ih _ _ _ _ fd hm2 hw2 hb2inv (by omega)]
          rw [hb2eq]
          exact congrArg some hfinal
      | some result =>
        obtain ⟨o, l⟩ := result
        obtain ⟨hl4, hl19, how, hlo, hlb, htk⟩ :=
          Compressor.find_match_spec w (head :: rest) o l hfm
        rw [Pointer.length_shortest_match_eq] at hl4
        rw [Pointer.length_longest_match_eq] at hl19
        simp only [List.length_cons] at hlb
        rw [Compressor.compressLoopF_match f w head rest text o l hfm] at hf ⊢
        dsimp only at hf ⊢
        have hwlen : w.length = min 4096 out.length := by
          rw [hw, takeLast_length, Pointer.size_sliding_window_eq]
        have ho4096 : o < 4096 := by omega
        have hout : o + 1 ≤ out.length := by omega
        have hslice : (out.drop (out.length - o - 1)).take l = (head :: rest).take l := by
          have hle : o + 1 ≤ (takeLast Pointer.size_sliding_window out).length := by
            rw [← hw]; omega
          have hdt := drop_takeLast Pointer.size_sliding_window o out hle
          rw [← hw] at hdt
          rw [← hdt]
          exact htk
        simp only [List.length_append, Pointer.encode_length, Pointer.size] at hf
        obtain ⟨fd, rfl⟩ : ∃ fd, fueld = fd + 1 := ⟨fueld - 1, by omega⟩
        rw [Compressor.decompressLoopF_pointer fd o l _ out ho4096 hl4 hl19 hlo hout]
        rw [hslice]
        have hw2 : dequeAppend Pointer.size_sliding_window w ((head :: rest).take l)
            = takeLast Pointer.size_sliding_window (out ++ (head :: rest).take l) := by
          rw [dequeAppend_eq_takeLast, hw, takeLast_append_takeLast]
        have hb2eq : dequeAppend Pointer.size_buffer ((head :: rest).drop l) (text.take l)
            = (head :: rest).drop l ++ text.take l := by
          apply dequeAppend_of_le
          rw [Pointer.size_buffer_eq]
          simp only [List.length_drop, List.length_take, List.length_cons]
          omega
        have hm2 : (dequeAppend Pointer.size_buffer ((head :: rest).drop l)
              (text.take l)).length + (text.drop l).length ≤ f := by
          rw [hb2eq]
          simp only [List.length_append, List.length_drop, List.length_take, List.length_cons]
          omega
        have hb2inv : (dequeAppend Pointer.size_buffer ((head :: rest).drop l)
              (text.take l)).length
            = min Pointer.size_buffer
              ((dequeAppend Pointer.size_buffer ((head :: rest).drop l)
                  (text.take l)).length + (text.drop l).length) := by
          rw [hb2eq, Pointer.size_buffer_eq]
          simp only [List.length_append, List.length_drop, List.length_take, List.length_cons]
          omega
        rw [ih _ _ _ _ fd hm2 hw2 hb2inv (by omega)]
        rw [hb2eq]
        have hfinal : (out ++ (head :: rest).take l)
            ++ (((head :: rest).drop l ++ text.take l) ++ text.drop l)
            = out ++ (head :: rest ++ text) := by
          rw [List.append_assoc ((head :: rest).drop l) (text.take l) (text.drop l),
            List.take_append_drop l text, List.append_assoc,
            ← List.append_assoc ((head :: rest).take l) ((head :: rest).drop l) text,
            List.take_append_drop l (head :: rest)]
        exact congrArg some hfinal

/-- Top-level round trip: the instantiation of `roundtrip_aux` at the entry
states of `compress` and `decompress`. -/
theorem Compressor.decompress_compress (content : List Nat) :
    Compressor.decompress (Compressor.compress content) = some content := by
  unfold Compressor.decompress Compressor.compress
  have h := Compressor.roundtrip_aux (content.length + 1) []
    (content.take Pointer.size_buffer) (content.drop Pointer.size_buffer) []
    (Compressor.compressLoopF (content.length + 1) []
      (content.take Pointer.size_buffer) (content.drop Pointer.size_buffer)).1.length
    (by simp only [List.length_take, List.length_drop]; omega)
    (by rw [takeLast_nil])
    (by simp only [List.length_take, List.length_drop]; rw [Pointer.size_buffer_eq]; omega)
    (le_refl _)
  rw [h]
  simp

/-! ### Decompression of escape-free streams -/

theorem Compressor.decompressLoopF_nil (fuel : Nat) (out : List Nat) :
    Compressor.decompressLoopF fuel [] out = some out := by
  cases fuel <;> rfl

theorem Compressor.decompressLoopF_no_escape :
    ∀ (fuel : Nat) (rest out : List Nat), rest.length ≤ fuel →
    (∀ b ∈ rest, b ≠ Pointer.ESCAPE_CHAR) →
    Compressor.decompressLoopF fuel rest out = some (out ++ rest) := by
  intro fuel
  induction fuel with
  | zero =>
    intro rest out hl _
    have hnil : rest = [] := List.length_eq_zero.mp (by omega)
    subst hnil
    simp [Compressor.decompressLoopF_nil]
  | succ f ih =>
    intro rest out hl hne
    cases rest with
    | nil => simp [Compressor.decompressLoopF_nil]
    | cons b bs =>
      simp only [List.length_cons] at hl
      rw [Compressor.decompressLoopF_literal f b bs out (hne b (by simp))]
      rw [ih bs (out ++ [b]) (by omega) (fun x hx => hne x (by simp [hx]))]
      simp

/-! ### Pointer bounds along the compress loop -/

theorem Compressor.compressLoopF_pointers :
    ∀ (fuel : Nat) (w buf text : List Nat), w.length ≤ 4096 →
    ∀ p ∈ (Compressor.compressLoopF fuel w buf text).2,
    p.2 ≤ p.1 + 1 ∧ p.1 < 4096 ∧ 4 ≤ p.2 ∧ p.2 ≤ 19 := by
  intro fuel
  induction fuel with
  | zero => intro w buf text _ p hp; simp [Compressor.compressLoopF] at hp
  | succ f ih =>
    intro w buf text hwl p hp
    cases buf with
    | nil => rw [Compressor.compressLoopF_nil] at hp; simp at hp
    | cons head rest =>
      cases hfm : Compressor.find_match w (head :: rest) with
      | none =>
        rw [Compressor.compressLoopF_literal f w head rest text hfm] at hp
        dsimp only at hp
        exact ih _ _ _
          (by rw [dequeAppend_length, Pointer.size_sliding_window_eq]; omega) p hp
      | some result =>
        obtain ⟨o, l⟩ := result
        rw [Compressor.compressLoopF_match f w head rest text o l hfm] at hp
        dsimp only at hp
        rcases List.mem_cons.mp hp with h | h
        · subst h
          obtain ⟨hl4, hl19, how, hlo, _, _⟩ :=
            Compressor.find_match_spec w (head :: rest) o l hfm
          rw [Pointer.length_shortest_match_eq] at hl4
          rw [Pointer.length_longest_match_eq] at hl19
          exact ⟨hlo, by omega, hl4, hl19⟩
        · exact ih _ _ _
            (by rw [dequeAppend_length, Pointer.size_sliding_window_eq]; omega) p h

/-! ### Fuel sufficiency (termination of the two loops) -/

theorem Compressor.compressLoopF_fuel_irrel :
    ∀ (f1 f2 : Nat) (w buf text : List Nat),
    buf.length + text.length ≤ f1 → buf.length + text.length ≤ f2 →
    Compressor.compressLoopF f1 w buf text = Compressor.compressLoopF f2 w buf text := by
  intro f1
  induction f1 with
  | zero =>
    intro f2 w buf text h1 _
    have hb : buf = [] := List.length_eq_zero.mp (by omega)
    subst hb
    rw [Compressor.compressLoopF_nil, Compressor.compressLoopF_nil]
  | succ f ih =>
    intro f2 w buf text h1 h2
    cases buf with
    | nil => rw [Compressor.compressLoopF_nil, Compressor.compressLoopF_nil]
    | cons head rest =>
      simp only [List.length_cons] at h1 h2
      obtain ⟨g, rfl⟩ : ∃ g, f2 = g + 1 := ⟨f2 - 1, by omega⟩
      cases hfm : Compressor.find_match w (head :: rest) with
      | none =>
        rw [Compressor.compressLoopF_literal f w head rest text hfm,
          Compressor.compressLoopF_literal g w head rest text hfm]
        rw [ih g _ _ _
          (by rw [dequeAppend_length]
              simp only [List.length_take, List.length_drop]
              omega)
          (by rw [dequeAppend_length]
              simp only [List.length_take, List.length_drop]
              omega)]
      | some result =>
        obtain ⟨o, l⟩ := result
        obtain ⟨hl4, _, _, _, hlb, _⟩ := Compressor.find_match_spec w (head :: rest) o l hfm
        rw [Pointer.length_shortest_match_eq] at hl4
        simp only [List.length_cons] at hlb
        rw [Compressor.compressLoopF_match f w head rest text o l hfm,
          Compressor.compressLoopF_match g w head rest text o l hfm]
        rw [ih g _ _ _
          (by rw [dequeAppend_length]
              simp only [List.length_take, List.length_drop, List.length_cons]
              omega)
          (by rw [dequeAppend_length]
              simp only [List.length_take, List.length_drop, List.length_cons]
              omega)]

theorem Compressor.decompressLoopF_pointer_raw (fd r1 r2 : Nat) (rest2 out : List Nat)
    (hz : ¬(r1 = 0 ∧ r2 = 0)) :
    Compressor.decompressLoopF (fd + 1) (Pointer.ESCAPE_CHAR :: r1 :: r2 :: rest2) out
      = match Pointer.decode [Pointer.ESCAPE_CHAR, r1, r2] with
        | some (offset, length) =>
          Compressor.decompressLoopF fd rest2
            (out ++ pySlice out ((out.length : Int) - offset - 1)
              ((out.length : Int) - offset - 1 + length))
        | none => none := by
  simp [Compressor.decompressLoopF, hz]

theorem Compressor.decompressLoopF_escape_one (fd : Nat) (out : List Nat) :
    Compressor.decompressLoopF (fd + 1) [Pointer.ESCAPE_CHAR] out = none := by
  simp [Compressor.decompressLoopF]

theorem Compressor.decompressLoopF_escape_two (fd r1 : Nat) (out : List Nat) :
    Compressor.decompressLoopF (fd + 1) [Pointer.ESCAPE_CHAR, r1] out = none := by
  simp [Compressor.decompressLoopF]

theorem Compressor.decompressLoopF_fuel_irrel :
    ∀ (f1 f2 : Nat) (rest out : List Nat),
    rest.length ≤ f1 → rest.length ≤ f2 →
    Compressor.decompressLoopF f1 rest out = Compressor.decompressLoopF f2 rest out := by
  intro f1
  induction f1 with
  | zero =>
    intro f2 rest out h1 _
    have hnil : rest = [] := List.length_eq_zero.mp (by omega)
    subst hnil
    rw [Compressor.decompressLoopF_nil, Compressor.decompressLoopF_nil]
  | succ f ih =>
    intro f2 rest out h1 h2
    cases rest with
    | nil => rw [Compressor.decompressLoopF_nil, Compressor.decompressLoopF_nil]
    | cons b bs =>
      simp only [List.length_cons] at h1 h2
      obtain ⟨g, rfl⟩ : ∃ g, f2 = g + 1 := ⟨f2 - 1, by omega⟩
      by_cases hb : b = Pointer.ESCAPE_CHAR
      · subst hb
        match bs with
        | [] =>
          rw [Compressor.decompressLoopF_escape_one, Compressor.decompressLoopF_escape_one]
        | [r1] =>
          rw [Compressor.decompressLoopF_escape_two, Compressor.decompressLoopF_escape_two]
        | r1 :: r2 :: rest2 =>
          simp only [List.length_cons] at h1 h2
          by_cases hz : r1 = 0 ∧ r2 = 0
          · obtain ⟨rfl, rfl⟩ := hz
            rw [Compressor.decompressLoopF_escape, Compressor.decompressLoopF_escape]
            exact ih g rest2 _ (by omega) (by omega)
          · rw [Compressor.decompressLoopF_pointer_raw f r1 r2 rest2 out hz,
              Compressor.decompressLoopF_pointer_raw g r1 r2 rest2 out hz]
            cases hdec : Pointer.decode [Pointer.ESCAPE_CHAR, r1, r2] with
            | none => rfl
            | some pr =>
              obtain ⟨o, l⟩ := pr
              dsimp only
              exact ih g rest2 _ (by omega) (by omega)
      · rw [Compressor.decompressLoopF_literal f b bs out hb,
          Compressor.decompressLoopF_literal g b bs out hb]
        exact ih g bs _ (by omega) (by omega)

/-! ### Nearest-match view of the scan -/

/-- The greedy run length that `find_match` computes at backward distance
`offset` from the window end (i.e. for the candidate start index
`len(sliding_window) - offset - 1`), exactly the source's inner loop. -/
def Compressor.match_length_at (sliding_window buffer : List Nat) (offset : Nat) : Nat :=
  Compressor.matchLoop Pointer.length_longest_match
    (sliding_window.drop (sliding_window.length - offset - 1)) buffer

/-! ### Claim theorems -/

/-- C1: for every byte sequence `b` (entries are byte values), decompressing
the compressed stream returns exactly `b`. -/
theorem Compressor.round_trip (content : List Nat) (h : ∀ x ∈ content, x < 256) :
    Compressor.decompress (Compressor.compress content) = some content :=
  Compressor.decompress_compress content

/-- Witness for C1 at the concrete input `[10, 204, 10]`, which contains the
escape byte 0xCC = 204. -/
theorem Compressor.round_trip_witness :
    (∀ x ∈ ([10, 204, 10] : List Nat), x < 256)
      ∧ Compressor.decompress (Compressor.compress [10, 204, 10]) = some [10, 204, 10] :=
  ⟨by decide, Compressor.round_trip [10, 204, 10] (by decide)⟩

/-- C2 counterexample: on `b"abcabcabcabc"` the compressed stream is six
literals followed by one pointer, not three literals followed by pointers:
every pointer starts with the escape byte 204, but byte 3 of the actual
output is the literal 97. -/
theorem Compressor.compress_abc_counterexample :
    Compressor.compress [97, 98, 99, 97, 98, 99, 97, 98, 99, 97, 98, 99]
        = [97, 98, 99, 97, 98, 99, 204, 0, 82]
      ∧ ¬((Compressor.compress [97, 98, 99, 97, 98, 99, 97, 98, 99, 97, 98, 99]).take 3
            = [97, 98, 99]
          ∧ (Compressor.compress [97, 98, 99, 97, 98, 99, 97, 98, 99, 97, 98, 99])[3]?
            = some Pointer.ESCAPE_CHAR) := by
  decide

/-- C2 amended: compressing `b"abcabcabcabc"` emits literals for the first
two occurrences of `abc` (six literal bytes: after only three processed
bytes the window cannot host a match of the minimum length four), then a
single pointer `(offset 5, length 6)` covering the remaining six bytes, and
decompressing that output returns the original input. -/
theorem Compressor.compress_abc_amended :
    Compressor.compress [97, 98, 99, 97, 98, 99, 97, 98, 99, 97, 98, 99]
        = [97, 98, 99, 97, 98, 99, 204, 0, 82]
      ∧ Compressor.emitted_pointers [97, 98, 99, 97, 98, 99, 97, 98, 99, 97, 98, 99]
        = [(5, 6)]
      ∧ Compressor.decompress [97, 98, 99, 97, 98, 99, 204, 0, 82]
        = some [97, 98, 99, 97, 98, 99, 97, 98, 99, 97, 98, 99] := by
  decide

/-- C3: `decode` inverts `encode` for every offset below `2^offset_bits` and
every length in `[shortest_match, longest_match]`, and `encode` emits the
escape byte followed by the two big-endian bytes of the packed field
`offset * 2^length_bits + (length - shortest_match)`. -/
theorem Pointer.decode_encode_inverse (offset length : Nat)
    (ho : offset < 2 ^ Pointer.bits_offset)
    (h1 : Pointer.length_shortest_match ≤ length)
    (h2 : length ≤ Pointer.length_longest_match) :
    Pointer.decode (Pointer.encode offset length) = some (offset, length)
      ∧ Pointer.encode offset length
        = [Pointer.ESCAPE_CHAR,
           (offset * 2 ^ Pointer.bits_length
             + (length - Pointer.length_shortest_match)) / 2 ^ 8,
           (offset * 2 ^ Pointer.bits_length
             + (length - Pointer.length_shortest_match)) % 2 ^ 8] := by
  rw [Pointer.length_shortest_match_eq] at h1
  rw [Pointer.length_longest_match_eq] at h2
  rw [Pointer.bits_offset_eq] at ho
  have h12 : (2 : Nat) ^ 12 = 4096 := by norm_num
  rw [h12] at ho
  obtain ⟨lp, rfl⟩ : ∃ lp, length = lp + 4 := ⟨length - 4, by omega⟩
  have hlp : lp < 16 := by omega
  constructor
  · exact Pointer.decode_encode offset lp ho hlp
  · rw [Pointer.encode_eq_bytes offset lp ho hlp]
    rw [Pointer.bits_length_eq, Pointer.length_shortest_match_eq, Pointer.ESCAPE_CHAR_eq]
    norm_num

/-- Witness for C3 at `offset = 5`, `length = 6`. -/
theorem Pointer.decode_encode_inverse_witness :
    (5 < 2 ^ Pointer.bits_offset ∧ Pointer.length_shortest_match ≤ 6
        ∧ 6 ≤ Pointer.length_longest_match)
      ∧ Pointer.decode (Pointer.encode 5 6) = some (5, 6) :=
  ⟨by decide, (Pointer.decode_encode_inverse 5 6 (by decide) (by decide) (by decide)).1⟩

/-- C4: when the decompressor meets an escape byte followed by fewer than
`size` remaining bytes it fails, and `Pointer.decode` fails on fewer than
`size + 1` input bytes. -/
theorem Compressor.truncated_escape_fails :
    (∀ (fuel : Nat) (rest2 out : List Nat), rest2.length < Pointer.size →
      Compressor.decompressLoopF (fuel + 1) (Pointer.ESCAPE_CHAR :: rest2) out = none)
      ∧ (∀ arr : List Nat, arr.length < Pointer.size + 1 → (∀ x ∈ arr, x < 256) →
          Pointer.decode arr = none) := by
  constructor
  · intro fuel rest2 out hlen
    rw [show Pointer.size = 2 from rfl] at hlen
    cases rest2 with
    | nil => exact Compressor.decompressLoopF_escape_one fuel out
    | cons r1 rs =>
      cases rs with
      | nil => exact Compressor.decompressLoopF_escape_two fuel r1 out
      | cons r2 rs2 => exact absurd hlen (by simp only [List.length_cons]; omega)
  · intro arr hlen hbytes
    rw [show Pointer.size = 2 from rfl] at hlen
    cases arr with
    | nil => rfl
    | cons a t =>
      cases t with
      | nil => rfl
      | cons b t2 =>
        cases t2 with
        | cons c t3 => exact absurd hlen (by simp only [List.length_cons]; omega)
        | nil =>
          have hb : b < 256 := hbytes b (by simp)
          have h28 : (2 : Nat) ^ 8 = 256 := by norm_num
          have hlen8 : (int2str b 8).length = 8 :=
            int2str_length_of_lt b 8 (by omega) (by rw [h28]; exact hb)
          have hcond : ((([a, b] : List Nat).drop 1).foldr
              (fun n acc => int2str n 8 ++ acc) []).length ≤ Pointer.bits_offset := by
            show (int2str b 8 ++ []).length ≤ Pointer.bits_offset
            rw [List.append_nil, hlen8, Pointer.bits_offset_eq]
            omega
          simp only [Pointer.decode]
          rw [if_pos hcond]

/-- Witness for C4: an escape byte with nothing after it, and a 2-byte
pointer slice. -/
theorem Compressor.truncated_escape_fails_witness :
    Compressor.decompressLoopF 1 [Pointer.ESCAPE_CHAR] [] = none
      ∧ Pointer.decode [204, 7] = none :=
  ⟨Compressor.truncated_escape_fails.1 0 [] [] (by decide),
   Compressor.truncated_escape_fails.2 [204, 7] (by decide) (by decide)⟩

/-- C5: nearest-match-wins — when eligible matches of equal length exist at
two offsets and no nearer offset is eligible, `find_match` returns the
smaller of the two offsets (with its greedy run length), without scanning
on to the larger offset. -/
theorem Compressor.find_match_nearest (w b : List Nat) (o1 o2 : Nat)
    (h2w : o2 < w.length) (h12 : o1 < o2)
    (he1 : Pointer.length_shortest_match ≤ Compressor.match_length_at w b o1)
    (he2 : Pointer.length_shortest_match ≤ Compressor.match_length_at w b o2)
    (heq : Compressor.match_length_at w b o1 = Compressor.match_length_at w b o2)
    (hmin : ∀ o, o < o1 →
      Compressor.match_length_at w b o < Pointer.length_shortest_match) :
    Compressor.find_match w b = some (o1, Compressor.match_length_at w b o1) := by
  have ho1 : o1 < w.length := by omega
  unfold Compressor.match_length_at
  unfold Compressor.match_length_at at he1
  have hrej : ∀ j, w.length - o1 - 1 < j → j < w.length →
      Compressor.matchLoop Pointer.length_longest_match (w.drop j) b
        < Pointer.length_shortest_match := by
    intro j hj1 hj2
    have h := hmin (w.length - j - 1) (by omega)
    unfold Compressor.match_length_at at h
    rw [show w.length - (w.length - j - 1) - 1 = j from by omega] at h
    exact h
  unfold Compressor.find_match
  have hfind := Compressor.findMatchFrom_finds w.length w b (w.length - o1 - 1)
    (by omega) he1 hrej
  rw [hfind]
  rw [show w.length - (w.length - o1 - 1) - 1 = o1 from by omega]

/-- Witness for C5: two equally long (length 4) eligible matches at offsets
3 and 8 in a 9-byte window; no offset below 3 is eligible; the scan returns
offset 3. -/
theorem Compressor.find_match_nearest_witness :
    (8 < ([5, 6, 7, 8, 0, 5, 6, 7, 8] : List Nat).length ∧ 3 < 8
        ∧ Pointer.length_shortest_match
            ≤ Compressor.match_length_at [5, 6, 7, 8, 0, 5, 6, 7, 8] [5, 6, 7, 8] 3
        ∧ Pointer.length_shortest_match
            ≤ Compressor.match_length_at [5, 6, 7, 8, 0, 5, 6, 7, 8] [5, 6, 7, 8] 8
        ∧ Compressor.match_length_at [5, 6, 7, 8, 0, 5, 6, 7, 8] [5, 6, 7, 8] 3
            = Compressor.match_length_at [5, 6, 7, 8, 0, 5, 6, 7, 8] [5, 6, 7, 8] 8
        ∧ (∀ o, o < 3 → Compressor.match_length_at [5, 6, 7, 8, 0, 5, 6, 7, 8]
              [5, 6, 7, 8] o < Pointer.length_shortest_match))
      ∧ Compressor.find_match [5, 6, 7, 8, 0, 5, 6, 7, 8] [5, 6, 7, 8]
        = some (3, Compressor.match_length_at [5, 6, 7, 8, 0, 5, 6, 7, 8] [5, 6, 7, 8] 3) :=
  ⟨by decide, Compressor.find_match_nearest [5, 6, 7, 8, 0, 5, 6, 7, 8] [5, 6, 7, 8] 3 8
    (by decide) (by decide) (by decide) (by decide) (by decide) (by decide)⟩

/-- C6: every pointer the compress loop passes to `Pointer.encode` satisfies
`offset + 1 ≥ length`, `offset < 2^offset_bits`, and
`shortest_match ≤ length ≤ longest_match`. -/
theorem Compressor.emitted_pointer_bounds (content : List Nat) (o l : Nat)
    (h : (o, l) ∈ Compressor.emitted_pointers content) :
    o + 1 ≥ l ∧ o < 2 ^ Pointer.bits_offset
      ∧ Pointer.length_shortest_match ≤ l ∧ l ≤ Pointer.length_longest_match := by
  unfold Compressor.emitted_pointers at h
  have hb := Compressor.compressLoopF_pointers (content.length + 1) []
    (content.take Pointer.size_buffer) (content.drop Pointer.size_buffer)
    (by simp) (o, l) h
  obtain ⟨h1, h2, h3, h4⟩ := hb
  rw [Pointer.bits_offset_eq, Pointer.length_shortest_match_eq,
    Pointer.length_longest_match_eq]
  have h12 : (2 : Nat) ^ 12 = 4096 := by norm_num
  rw [h12]
  exact ⟨h1, h2, h3, h4⟩

/-- Witness for C6: the pointer `(5, 6)` emitted on `b"abcabcabcabc"`. -/
theorem Compressor.emitted_pointer_bounds_witness :
    ((5, 6) ∈ Compressor.emitted_pointers [97, 98, 99, 97, 98, 99, 97, 98, 99, 97, 98, 99])
      ∧ (5 + 1 ≥ 6 ∧ 5 < 2 ^ Pointer.bits_offset
          ∧ Pointer.length_shortest_match ≤ 6 ∧ 6 ≤ Pointer.length_longest_match) :=
  ⟨by decide, Compressor.emitted_pointer_bounds
    [97, 98, 99, 97, 98, 99, 97, 98, 99, 97, 98, 99] 5 6 (by decide)⟩

/-- C7: the empty input compresses to the empty stream, and the empty stream
decompresses to the empty output. -/
theorem Compressor.empty_round :
    Compressor.compress [] = [] ∧ Compressor.decompress [] = some [] := by
  decide

/-- C8: decompression returns any stream free of the escape byte unchanged. -/
theorem Compressor.decompress_no_escape (content : List Nat)
    (h : ∀ b ∈ content, b ≠ Pointer.ESCAPE_CHAR) :
    Compressor.decompress content = some content := by
  unfold Compressor.decompress
  rw [Compressor.decompressLoopF_no_escape content.length content [] (le_refl _) h]
  simp

/-- Witness for C8 at `[1, 2, 3]`. -/
theorem Compressor.decompress_no_escape_witness :
    (∀ b ∈ ([1, 2, 3] : List Nat), b ≠ Pointer.ESCAPE_CHAR)
      ∧ Compressor.decompress [1, 2, 3] = some [1, 2, 3] :=
  ⟨by decide, Compressor.decompress_no_escape [1, 2, 3] (by decide)⟩

/-- C9: in the no-match step, the literal popped from the buffer front is
emitted verbatim unless it equals the escape byte, in which case the
escape-collision triple `escape_marker, 0, 0` is emitted instead. -/
theorem Compressor.literal_emission (f : Nat) (w : List Nat) (head : Nat)
    (rest text : List Nat)
    (hfm : Compressor.find_match w (head :: rest) = none) :
    (Compressor.compressLoopF (f + 1) w (head :: rest) text).1
      = (if head = Pointer.ESCAPE_CHAR then [Pointer.ESCAPE_CHAR, 0, 0] else [head])
        ++ (Compressor.compressLoopF f
            (dequeAppend Pointer.size_sliding_window w [head])
            (dequeAppend Pointer.size_buffer rest (text.take 1))
            (text.drop 1)).1 := by
  rw [Compressor.compressLoopF_literal f w head rest text hfm]

/-- Witness for C9 with the escape byte as the literal. -/
theorem Compressor.literal_emission_witness :
    Compressor.find_match [] [204] = none
      ∧ (Compressor.compressLoopF 1 [] [204] []).1
        = (if (204 : Nat) = Pointer.ESCAPE_CHAR then [Pointer.ESCAPE_CHAR, 0, 0] else [204])
          ++ (Compressor.compressLoopF 0
              (dequeAppend Pointer.size_sliding_window [] [204])
              (dequeAppend Pointer.size_buffer [] (([] : List Nat).take 1))
              (([] : List Nat).drop 1)).1 :=
  ⟨by decide, Compressor.literal_emission 0 [] 204 [] [] (by decide)⟩

/-- C10: termination of both loops, in the fuel model: the compress loop
completes within `buffer.length + text.length` iterations (each iteration
consumes at least one byte of buffer-plus-tail: one in the literal case, the
match length in the match case) and the decompress loop within
`content.length` iterations (the cursor advances by 1 or 3), so any two
sufficient budgets give identical results and neither loop can run
forever. -/
theorem Compressor.loops_terminate (f1 f2 : Nat) (w buf text rest out : List Nat)
    (hc1 : buf.length + text.length ≤ f1) (hc2 : buf.length + text.length ≤ f2)
    (hd1 : rest.length ≤ f1) (hd2 : rest.length ≤ f2) :
    Compressor.compressLoopF f1 w buf text = Compressor.compressLoopF f2 w buf text
      ∧ Compressor.decompressLoopF f1 rest out = Compressor.decompressLoopF f2 rest out :=
  ⟨Compressor.compressLoopF_fuel_irrel f1 f2 w buf text hc1 hc2,
   Compressor.decompressLoopF_fuel_irrel f1 f2 rest out hd1 hd2⟩

/-- Witness for C10 at small concrete states. -/
theorem Compressor.loops_terminate_witness :
    Compressor.compressLoopF 3 [] [7] [] = Compressor.compressLoopF 7 [] [7] []
      ∧ Compressor.decompressLoopF 3 [204, 0, 0] []
        = Compressor.decompressLoopF 7 [204, 0, 0] [] :=
  Compressor.loops_terminate 3 7 [] [7] [] [204, 0, 0] []
    (by decide) (by decide) (by decide) (by decide)
